import Mathlib

set_option maxRecDepth 8000

/-!
Verification development for the rotating ASCII-donut renderer (`src/main.rs`).

Modelling conventions:
* `f32` arithmetic is modelled over `ℚ` (exact real-valued arithmetic of the
  same expressions); the trigonometric functions `sin`/`cos` are an abstract
  oracle `Trig`, so every structural theorem below is quantified over the
  oracle.  Where a claim needs the analytic bounds `|sin| ≤ 1`, `|cos| ≤ 1`
  they appear as the explicit hypothesis `TrigBounded`.
* `f32::INFINITY` entries of the z-buffer are modelled by `none : Option ℚ`.
* The Rust cast `as isize` (truncation toward zero) is `truncQ`.
* `std::f32::consts::PI` is the exact rational value `13176795 / 4194304`
  of that `f32` constant; with these exact steps the loop iteration counts
  (90 theta values, 315 phi values) coincide with the `f32` execution.
* `Duration` values are modelled as nanosecond counts in `ℕ`;
  `Duration::saturating_sub` is truncated `Nat` subtraction.
-/

/-- Abstract trigonometric oracle standing for `f32::sin`/`f32::cos`. -/
structure Trig where
  sin : ℚ → ℚ
  cos : ℚ → ℚ

/-- The oracle satisfies the analytic range bounds of sine and cosine. -/
def TrigBounded (t : Trig) : Prop :=
  ∀ x : ℚ, -1 ≤ t.sin x ∧ t.sin x ≤ 1 ∧ -1 ≤ t.cos x ∧ t.cos x ≤ 1

/-- The trivial bounded oracle (used to instantiate witnesses). -/
def tZero : Trig := ⟨fun _ => 0, fun _ => 0⟩

/-- Rust `as isize` on a finite float: truncation toward zero. -/
def truncQ (q : ℚ) : ℤ := if 0 ≤ q then ⌊q⌋ else ⌈q⌉

/-- `let theta_spacing = 0.07;` -/
def theta_spacing : ℚ := 0.07

/-- `let phi_spacing = 0.02;` -/
def phi_spacing : ℚ := 0.02

/-- `let r1 = 1.0;` -/
def r1 : ℚ := 1

/-- `let r2 = 2.0;` -/
def r2 : ℚ := 2

/-- `let k2 = 5.0;` -/
def k2 : ℚ := 5

/-- `let k1 = width as f32 * k2 * 3.0 / (8.0 * (r1 + r2));` -/
def k1 (width : ℕ) : ℚ := (width : ℚ) * k2 * 3 / (8 * (r1 + r2))

/-- Exact rational value of the `f32` constant `std::f32::consts::PI`
(bit pattern `0x40490FDB`). -/
def PI32 : ℚ := 13176795 / 4194304

/-- The frame buffer: `output` character grid and parallel `zbuffer`
depth grid (`none` stands for `f32::INFINITY`). -/
structure Frame where
  output : List Char
  zbuffer : List (Option ℚ)
deriving DecidableEq

/-- `let mut output = vec![' '; width * height];`
`let mut zbuffer = vec![f32::INFINITY; width * height];` -/
def initFrame (w h : ℕ) : Frame :=
  { output := List.replicate (w * h) ' '
    zbuffer := List.replicate (w * h) (none : Option ℚ) }

/-- The character ramp `".,-~:;=!*#$@%&"` (14 characters). -/
def asciiRamp : List Char := ".,-~:;=!*#$@%&".toList

/-- Character selection `ramp[i..=i].chars().next().unwrap()`
(total function; every index actually used is below 14). -/
def rampChar (i : ℕ) : Char := asciiRamp.getD i ' '

/-- `let luminance_index = (l * 12.0).clamp(0.0, 11.0).floor() as usize;`
(`f32::clamp(lo, hi)` is `min (max x lo) hi`). -/
def luminance_index (l : ℚ) : ℕ := (⌊min (max (l * 12) 0) 11⌋).toNat

/-- `let circle_x = r2 + r1 * cos_theta;` -/
def circle_x (t : Trig) (θ : ℚ) : ℚ := r2 + r1 * t.cos θ

/-- `let x = circle_x * (cos_b * cos_phi + sin_a * sin_b * sin_phi)
  - r1 * cos_a * sin_b * sin_phi;` -/
def xCoord (t : Trig) (a b θ φ : ℚ) : ℚ :=
  circle_x t θ * (t.cos b * t.cos φ + t.sin a * t.sin b * t.sin φ)
    - r1 * t.cos a * t.sin b * t.sin φ

/-- `let y = circle_x * sin_phi * cos_b - r1 * sin_b * sin_phi * cos_a;` -/
def yCoord (t : Trig) (a b θ φ : ℚ) : ℚ :=
  circle_x t θ * t.sin φ * t.cos b - r1 * t.sin b * t.sin φ * t.cos a

/-- `let z = k2 + cos_a * circle_x * sin_phi + sin_a * r1 * cos_phi;` -/
def zDepth (t : Trig) (a θ φ : ℚ) : ℚ :=
  k2 + t.cos a * circle_x t θ * t.sin φ + t.sin a * r1 * t.cos φ

/-- `let l = cos_phi * cos_theta * sin_b - cos_a * cos_theta * sin_phi
  - sin_a * sin_theta + cos_b * (cos_a * sin_theta - cos_theta * sin_a * sin_phi);` -/
def brightness (t : Trig) (a b θ φ : ℚ) : ℚ :=
  t.cos φ * t.cos θ * t.sin b - t.cos a * t.cos θ * t.sin φ
    - t.sin a * t.sin θ
    + t.cos b * (t.cos a * t.sin θ - t.cos θ * t.sin a * t.sin φ)

/-- Projection to integer screen coordinates and the bounds check
`xp >= 0 && xp < width && yp >= 0 && yp < height`; on success returns
the buffer index `xp as usize + width * yp as usize`. -/
def screenPos (t : Trig) (a b : ℚ) (w h : ℕ) (θ φ : ℚ) : Option ℕ :=
  let z := zDepth t a θ φ
  let ooz := k1 w / z
  let xp := truncQ ((w : ℚ) / 2 + xCoord t a b θ φ * ooz)
  let yp := truncQ ((h : ℚ) / 2 - yCoord t a b θ φ * ooz)
  if 0 ≤ xp ∧ xp < (w : ℤ) ∧ 0 ≤ yp ∧ yp < (h : ℤ) then
    some (xp.toNat + w * yp.toNat)
  else
    none

/-- Depth-buffer comparison `z < zbuffer[index]` against a possibly
infinite stored depth. -/
def ltStored (z : ℚ) (stored : Option ℚ) : Bool :=
  match stored with
  | none => true
  | some v => decide (z < v)

/-- One iteration of the inner rasterization loop body: project the sample,
discard it when out of bounds, otherwise run the depth test
`l > 0.0 && z < zbuffer[index]` and on success store the new depth and
the quantized brightness character. -/
def plotSample (t : Trig) (a b : ℚ) (w h : ℕ) (θ φ : ℚ) (fr : Frame) : Frame :=
  match screenPos t a b w h θ φ with
  | none => fr
  | some index =>
    let l := brightness t a b θ φ
    let z := zDepth t a θ φ
    if 0 < l ∧ ltStored z (fr.zbuffer.getD index none) then
      { output := fr.output.set index (rampChar (luminance_index l))
        zbuffer := fr.zbuffer.set index (some z) }
    else
      fr

/-- The sampler `(0..).map(|i| i as f32 * step).take_while(|v| v < bound)`:
angles `i * step` for `i = 0, 1, ...` while the value stays below `bound`. -/
def enumAngles (step bound : ℚ) (hstep : 0 < step) (i : ℕ) : List ℚ :=
  if h : (i : ℚ) * step < bound then
    (i : ℚ) * step :: enumAngles step bound hstep (i + 1)
  else
    []
termination_by Nat.ceil (bound / step) - i
decreasing_by
  have hi : i < Nat.ceil (bound / step) := by
    rw [Nat.lt_ceil]
    exact (lt_div_iff₀ hstep).mpr h
  omega

/-- The outer loop's theta values: `0, 0.07, 0.14, ...` below `2 * PI`. -/
def thetaList : List ℚ := enumAngles theta_spacing (2 * PI32) (by norm_num [theta_spacing]) 0

/-- The inner loop's phi values: `0, 0.02, 0.04, ...` below `2 * PI`. -/
def phiList : List ℚ := enumAngles phi_spacing (2 * PI32) (by norm_num [phi_spacing]) 0

/-- The full sample enumeration, theta-major and phi-minor. -/
def sampleList : List (ℚ × ℚ) :=
  thetaList.flatMap (fun θ => phiList.map (fun φ => (θ, φ)))

/-- The rasterization pass of `render_frame`: both buffers initialized fresh,
then the nested theta/phi loops over `plotSample`.  Returns the final
character grid and depth grid. -/
def render_frame (t : Trig) (a b : ℚ) (w h : ℕ) : Frame :=
  thetaList.foldl
    (fun fr θ => phiList.foldl (fun fr2 φ => plotSample t a b w h θ φ fr2) fr)
    (initFrame w h)

/-- The cursor reset escape `"\x1B[H"` printed before the grid. -/
def cursorReset : List Char := ['\x1B', '[', 'H']

/-- The flush loop of `render_frame`: the cursor reset, then for each
`k in 0..width*height` a `'\n'` whenever `k % width == 0` followed by
`output[k]`. -/
def flushFrame (output : List Char) (w h : ℕ) : List Char :=
  cursorReset
    ++ (List.range (w * h)).flatMap
        (fun k => (if k % w = 0 then ['\n'] else []) ++ [output.getD k ' '])

/-- Modelled from the spec: the flush shape the specification describes,
`width * height` characters in row-major order directly after the cursor
reset with one line break inserted after every `width` characters. -/
def specFlushFrame (output : List Char) (w h : ℕ) : List Char :=
  cursorReset
    ++ (List.range (w * h)).flatMap
        (fun k => [output.getD k ' '] ++ (if (k + 1) % w = 0 then ['\n'] else []))

/-- Modelled from the spec: brightness quantization as the claim words it,
`floor (brightness * 12)` clamped to the index range `[0, 13]`. -/
def specLuminanceIndex (l : ℚ) : ℕ := (min (max (⌊l * 12⌋) 0) 13).toNat

/-- The controller state of `main`: rotation angles, their speeds, and the
`running` flag. -/
structure AnimState where
  a : ℚ
  b : ℚ
  a_speed : ℚ
  b_speed : ℚ
  running : Bool
deriving DecidableEq

/-- `let mut a = 0.0; let mut b = 0.0; let mut a_speed = 0.04;
let mut b_speed = 0.08; let mut running = true;` -/
def initAnimState : AnimState :=
  { a := 0, b := 0, a_speed := 0.04, b_speed := 0.08, running := true }

/-- The key codes distinguished by the `match code` in `main`; `other`
stands for every remaining `crossterm` key-code variant. -/
inductive KeyCode where
  | up
  | down
  | right
  | left
  | char (c : Char)
  | esc
  | other
deriving DecidableEq

/-- The `match code { ... }` arm applied to one drained key event. -/
def applyKey (s : AnimState) (k : KeyCode) : AnimState :=
  match k with
  | .up => { s with a_speed := s.a_speed + 0.01 }
  | .down => { s with a_speed := s.a_speed - 0.01 }
  | .right => { s with b_speed := s.b_speed + 0.01 }
  | .left => { s with b_speed := s.b_speed - 0.01 }
  | .char c =>
    if c = 'r' then { s with a_speed := 0.04, b_speed := 0.08 }
    else if c = 'p' then { s with a_speed := 0, b_speed := 0 }
    else if c = 's' then { s with a_speed := 0.04, b_speed := 0.08 }
    else s
  | .esc => { s with running := false }
  | .other => s

/-- The drain loop `while let Ok(KeyEvent { code, .. }) = rx.try_recv()`:
processes the queued events in order; the `Esc` arm sets `running = false`
and `break`s, leaving the remaining events unconsumed (returned in the
second component). -/
def drainEvents : AnimState → List KeyCode → AnimState × List KeyCode
  | s, [] => (s, [])
  | s, k :: rest =>
    let s2 := applyKey s k
    match k with
    | .esc => (s2, rest)
    | _ => drainEvents s2 rest

/-- The main loop `while running { drain; render_frame(a, b, ..); a += a_speed;
b += b_speed; sleep }`, run against a finite schedule of per-tick event
batches.  Each tick that executes renders unconditionally after the drain; the
returned trace lists the `(a, b)` angle pairs the rasterizer was invoked
with. -/
def runLoop : AnimState → List (List KeyCode) → List (ℚ × ℚ)
  | _, [] => []
  | s, evs :: rest =>
    if s.running then
      let s1 := (drainEvents s evs).1
      (s1.a, s1.b)
        :: runLoop { s1 with a := s1.a + s1.a_speed, b := s1.b + s1.b_speed } rest
    else
      []

/-- `Duration::from_millis(50)` in nanoseconds. -/
def targetIntervalNs : ℕ := 50 * 1000000

/-- `Duration::from_millis(50).saturating_sub(elapsed)`: truncated
subtraction on nanosecond counts. -/
def frameDelayNs (elapsed : ℕ) : ℕ := targetIntervalNs - elapsed

/-- Folding over the theta-major flattening coincides with the nested
theta/phi loops. -/
lemma foldl_flatMap_pairs {α : Type} (g : α → ℚ × ℚ → α) (ts ps : List ℚ) (x : α) :
    (ts.flatMap (fun θ => ps.map (fun φ => (θ, φ)))).foldl g x
      = ts.foldl (fun y θ => ps.foldl (fun y2 φ => g y2 (θ, φ)) y) x := by
  induction ts generalizing x with
  | nil => rfl
  | cons θ ts ih =>
    simp only [List.flatMap_cons, List.foldl_append, List.foldl_cons, List.foldl_map]
    rw [ih]

/-- The sampler enumeration from index `i` is the explicit arithmetic
progression of the remaining indices. -/
lemma enumAngles_eq_range (step bound : ℚ) (hstep : 0 < step) :
    ∀ (k i : ℕ), Nat.ceil (bound / step) - i = k →
      enumAngles step bound hstep i
        = (List.range k).map (fun j => ((i + j : ℕ) : ℚ) * step) := by
  intro k
  induction k with
  | zero =>
    intro i hk
    rw [enumAngles, dif_neg]
    · rfl
    · intro hlt
      have : i < Nat.ceil (bound / step) := Nat.lt_ceil.mpr ((lt_div_iff₀ hstep).mpr hlt)
      omega
  | succ k ih =>
    intro i hk
    have hi : i < Nat.ceil (bound / step) := by omega
    have hlt : (i : ℚ) * step < bound := (lt_div_iff₀ hstep).mp (Nat.lt_ceil.mp hi)
    rw [enumAngles, dif_pos hlt, ih (i + 1) (by omega)]
    rw [List.range_succ_eq_map, List.map_cons, List.map_map]
    refine List.cons_eq_cons.mpr ⟨by norm_num, ?_⟩
    refine List.map_congr_left ?_
    intro j _
    have harg : i + 1 + j = i + (j + 1) := by omega
    simp [Function.comp, harg]

/-- The outer loop runs for exactly 90 theta indices. -/
lemma thetaCeil : Nat.ceil ((2 * PI32) / theta_spacing) = 90 := by
  rw [Nat.ceil_eq_iff (by norm_num)]
  norm_num [PI32, theta_spacing]

/-- The inner loop runs for exactly 315 phi indices. -/
lemma phiCeil : Nat.ceil ((2 * PI32) / phi_spacing) = 315 := by
  rw [Nat.ceil_eq_iff (by norm_num)]
  norm_num [PI32, phi_spacing]

/-- Closed form of the theta enumeration. -/
lemma thetaList_eq :
    thetaList = (List.range 90).map (fun i : ℕ => (i : ℚ) * theta_spacing) := by
  have h := enumAngles_eq_range theta_spacing (2 * PI32)
    (by norm_num [theta_spacing]) 90 0 (by rw [thetaCeil])
  simpa [thetaList] using h

/-- Closed form of the phi enumeration. -/
lemma phiList_eq :
    phiList = (List.range 315).map (fun j : ℕ => (j : ℚ) * phi_spacing) := by
  have h := enumAngles_eq_range phi_spacing (2 * PI32)
    (by norm_num [phi_spacing]) 315 0 (by rw [phiCeil])
  simpa [phiList] using h

/-- A sample's contribution to screen cell `i`: its depth, recorded when the
sample is in bounds, front-facing (`l > 0`), and projects to cell `i`. -/
def contrib (t : Trig) (a b : ℚ) (w h : ℕ) (i : ℕ) (θ φ : ℚ) : Option ℚ :=
  match screenPos t a b w h θ φ with
  | some j => if j = i ∧ 0 < brightness t a b θ φ then some (zDepth t a θ φ) else none
  | none => none

/-- Running-minimum step over an optional depth (`none` is `+infinity`). -/
def stepMin (acc : Option ℚ) (z : ℚ) : Option ℚ :=
  some (match acc with
        | none => z
        | some v => min v z)

/-- Minimum of a list of depths; `none` when the list is empty. -/
def minDepth (ds : List ℚ) : Option ℚ := ds.foldl stepMin none

/-- An in-bounds projected index is always below `width * height`. -/
lemma screenPos_lt {t : Trig} {a b : ℚ} {w h : ℕ} {θ φ : ℚ} {j : ℕ}
    (hj : screenPos t a b w h θ φ = some j) : j < w * h := by
  simp only [screenPos] at hj
  set xp := truncQ ((w : ℚ) / 2 + xCoord t a b θ φ * (k1 w / zDepth t a θ φ)) with hxp
  set yp := truncQ ((h : ℚ) / 2 - yCoord t a b θ φ * (k1 w / zDepth t a θ φ)) with hyp
  split at hj
  case isTrue hcond =>
    obtain ⟨h1, h2, h3, h4⟩ := hcond
    injection hj with hj
    subst hj
    have hq : yp.toNat + 1 ≤ h := by omega
    calc xp.toNat + w * yp.toNat < w + w * yp.toNat := by omega
      _ = w * (yp.toNat + 1) := by ring
      _ ≤ w * h := Nat.mul_le_mul_left w hq
  case isFalse => exact absurd hj (by simp)

/-- `plotSample` never changes the z-buffer length. -/
lemma plotSample_zbuffer_length (t : Trig) (a b : ℚ) (w h : ℕ) (θ φ : ℚ) (fr : Frame) :
    (plotSample t a b w h θ φ fr).zbuffer.length = fr.zbuffer.length := by
  unfold plotSample
  cases hsp : screenPos t a b w h θ φ with
  | none => rfl
  | some j =>
    dsimp only
    split
    · simp
    · rfl

/-- `plotSample` never changes the output-grid length. -/
lemma plotSample_output_length (t : Trig) (a b : ℚ) (w h : ℕ) (θ φ : ℚ) (fr : Frame) :
    (plotSample t a b w h θ φ fr).output.length = fr.output.length := by
  unfold plotSample
  cases hsp : screenPos t a b w h θ φ with
  | none => rfl
  | some j =>
    dsimp only
    split
    · simp
    · rfl

/-- Effect of one sample on the depth stored at cell `i`: exactly a
running-minimum step by the sample's contribution to `i`. -/
lemma plotSample_getD (t : Trig) (a b : ℚ) (w h : ℕ) (θ φ : ℚ) (fr : Frame) (i : ℕ)
    (hlen : fr.zbuffer.length = w * h) (hi : i < w * h) :
    (plotSample t a b w h θ φ fr).zbuffer.getD i none
      = match contrib t a b w h i θ φ with
        | none => fr.zbuffer.getD i none
        | some z => stepMin (fr.zbuffer.getD i none) z := by
  unfold plotSample contrib
  cases hsp : screenPos t a b w h θ φ with
  | none => rfl
  | some j =>
    dsimp only
    by_cases hl : 0 < brightness t a b θ φ
    · by_cases hj : j = i
      · subst hj
        rw [if_pos (show j = j ∧ 0 < brightness t a b θ φ from ⟨rfl, hl⟩)]
        have hjlen : j < fr.zbuffer.length := by omega
        cases hcur : fr.zbuffer.getD j none with
        | none =>
          rw [if_pos (show 0 < brightness t a b θ φ
              ∧ ltStored (zDepth t a θ φ) none = true from ⟨hl, rfl⟩)]
          simp [List.getD_eq_getElem?_getD, List.getElem?_set_self hjlen, stepMin]
        | some v =>
          by_cases hzv : zDepth t a θ φ < v
          · rw [if_pos (show 0 < brightness t a b θ φ
                ∧ ltStored (zDepth t a θ φ) (some v) = true
                from ⟨hl, by simp [ltStored, hzv]⟩)]
            simp [List.getD_eq_getElem?_getD, List.getElem?_set_self hjlen, stepMin,
              min_eq_right (le_of_lt hzv)]
          · rw [if_neg (show ¬(0 < brightness t a b θ φ
                ∧ ltStored (zDepth t a θ φ) (some v) = true)
                from fun hc => by
                  have := hc.2
                  simp only [ltStored, decide_eq_true_eq] at this
                  exact hzv this)]
            rw [hcur]
            simp [stepMin, min_eq_left (not_lt.mp hzv)]
      · rw [if_neg (show ¬(j = i ∧ 0 < brightness t a b θ φ) from fun hc => hj hc.1)]
        split
        · simp [List.getD_eq_getElem?_getD, List.getElem?_set_ne hj]
        · rfl
    · rw [if_neg (show ¬(j = i ∧ 0 < brightness t a b θ φ) from fun hc => hl hc.2),
        if_neg (show ¬(0 < brightness t a b θ φ
          ∧ ltStored (zDepth t a θ φ) (fr.zbuffer.getD j none) = true)
          from fun hc => hl hc.1)]

/-- Folding any sample list over `plotSample` computes, at every cell `i`,
the running minimum of the contributions of the samples to `i`. -/
lemma foldl_plot_getD (t : Trig) (a b : ℚ) (w h : ℕ) (i : ℕ) (hi : i < w * h)
    (samples : List (ℚ × ℚ)) :
    ∀ (fr : Frame), fr.zbuffer.length = w * h →
      ((samples.foldl (fun fr2 s => plotSample t a b w h s.1 s.2 fr2) fr).zbuffer.getD i none)
        = (samples.filterMap (fun s => contrib t a b w h i s.1 s.2)).foldl stepMin
            (fr.zbuffer.getD i none) := by
  induction samples with
  | nil => intro fr _; rfl
  | cons s ss ih =>
    intro fr hlen
    have hstep := plotSample_getD t a b w h s.1 s.2 fr i hlen hi
    have hlen2 : (plotSample t a b w h s.1 s.2 fr).zbuffer.length = w * h := by
      rw [plotSample_zbuffer_length]; exact hlen
    cases hc : contrib t a b w h i s.1 s.2 with
    | none =>
      simp only [List.foldl_cons, List.filterMap_cons]
      rw [ih _ hlen2, hstep, hc]
    | some z =>
      simp only [List.foldl_cons, List.filterMap_cons]
      rw [ih _ hlen2, hstep, hc]
      rfl

/-- The freshly initialized z-buffer stores `+infinity` everywhere. -/
lemma initFrame_zbuffer_getD {w h i : ℕ} (hi : i < w * h) :
    (initFrame w h).zbuffer.getD i none = (none : Option ℚ) := by
  simp [initFrame, List.getD_eq_getElem?_getD, List.getElem?_replicate_of_lt hi]

/-- Length of the freshly initialized z-buffer. -/
lemma initFrame_zbuffer_length (w h : ℕ) :
    (initFrame w h).zbuffer.length = w * h := by
  simp [initFrame]

/-- Folding `stepMin` from a finite depth is folding `min`. -/
lemma foldl_stepMin_some (ds : List ℚ) : ∀ v : ℚ,
    ds.foldl stepMin (some v) = some (ds.foldl min v) := by
  induction ds with
  | nil => intro v; rfl
  | cons d ds ih =>
    intro v
    rw [List.foldl_cons, List.foldl_cons]
    exact ih (min v d)

/-- `minDepth` is `none` exactly on the empty list. -/
lemma minDepth_eq_none_iff (ds : List ℚ) : minDepth ds = none ↔ ds = [] := by
  cases ds with
  | nil => simp [minDepth]
  | cons d ds =>
    constructor
    · intro hmd
      have h1 : minDepth (d :: ds) = some (ds.foldl min d) := foldl_stepMin_some ds d
      rw [h1] at hmd
      exact absurd hmd (by simp)
    · intro hfalse
      exact absurd hfalse (by simp)

/-- A `min`-fold is bounded by its initial value. -/
lemma foldl_min_le_init (ds : List ℚ) : ∀ v : ℚ, ds.foldl min v ≤ v := by
  induction ds with
  | nil => intro v; exact le_refl v
  | cons d ds ih =>
    intro v
    rw [List.foldl_cons]
    exact le_trans (ih (min v d)) (min_le_left v d)

/-- A `min`-fold is attained at the initial value or at a list element. -/
lemma foldl_min_mem (ds : List ℚ) : ∀ v : ℚ,
    ds.foldl min v = v ∨ ds.foldl min v ∈ ds := by
  induction ds with
  | nil => intro v; exact Or.inl rfl
  | cons d ds ih =>
    intro v
    rw [List.foldl_cons]
    rcases ih (min v d) with hmem | hmem
    · rw [hmem]
      rcases min_choice v d with hc | hc
    --
      · exact Or.inl hc
      · rw [hc]; exact Or.inr (List.mem_cons_self d ds)
    · exact Or.inr (List.mem_cons_of_mem d hmem)

/-- A `min`-fold is a lower bound of every list element. -/
lemma foldl_min_le_mem (ds : List ℚ) : ∀ (v z : ℚ), z ∈ ds → ds.foldl min v ≤ z := by
  induction ds with
  | nil => intro v z hz; exact absurd hz (by simp)
  | cons d ds ih =>
    intro v z hz
    rw [List.foldl_cons]
    rcases List.mem_cons.mp hz with rfl | hz
    · exact le_trans (foldl_min_le_init ds (min v z)) (min_le_right v z)
    · exact ih (min v d) z hz

/-- A finite `minDepth` is attained in the list and bounds every element. -/
lemma minDepth_spec (ds : List ℚ) (m : ℚ) (hm : minDepth ds = some m) :
    m ∈ ds ∧ ∀ z ∈ ds, m ≤ z := by
  cases ds with
  | nil => exact absurd hm (by simp [minDepth])
  | cons d ds =>
    have h1 : minDepth (d :: ds) = some (ds.foldl min d) := foldl_stepMin_some ds d
    rw [h1] at hm
    injection hm with hm
    subst hm
    refine ⟨?_, ?_⟩
    · rcases foldl_min_mem ds d with h | h
      · rw [h]; exact List.mem_cons_self d ds
      · exact List.mem_cons_of_mem d h
    · intro z hz
      rcases List.mem_cons.mp hz with rfl | hz
      · exact foldl_min_le_init ds z
      · exact foldl_min_le_mem ds d z hz

/-- Claim C1: for every frame, at every screen cell, the depth stored at the
end of rasterization equals the minimum (`minDepth`) of the depths of the
in-bounds, front-facing (`brightness > 0`) samples that projected to that
cell (a cell with no such sample keeps `+infinity`, i.e. `none`); moreover
that minimum is attained by a contributing sample and bounds every
contributing sample, and a sample either leaves the frame (depth and
character grids) unchanged or has positive brightness — so samples with
brightness at most `0` never modify a cell. -/
theorem claim_c1 (t : Trig) (a b : ℚ) (w h : ℕ) (i : Fin (w * h)) :
    ((render_frame t a b w h).zbuffer.getD i.val none
        = minDepth (sampleList.filterMap (fun s => contrib t a b w h i.val s.1 s.2)))
    ∧ (match (render_frame t a b w h).zbuffer.getD i.val none with
       | none => sampleList.filterMap (fun s => contrib t a b w h i.val s.1 s.2) = []
       | some m =>
           m ∈ sampleList.filterMap (fun s => contrib t a b w h i.val s.1 s.2)
           ∧ (sampleList.filterMap (fun s => contrib t a b w h i.val s.1 s.2)).all
               (fun z => decide (m ≤ z)) = true)
    ∧ (∀ θ φ fr, plotSample t a b w h θ φ fr = fr ∨ 0 < brightness t a b θ φ) := by
  have hflat : render_frame t a b w h
      = sampleList.foldl (fun fr2 s => plotSample t a b w h s.1 s.2 fr2) (initFrame w h) := by
    unfold render_frame sampleList
    rw [foldl_flatMap_pairs]
  have hmain : (render_frame t a b w h).zbuffer.getD i.val none
      = minDepth (sampleList.filterMap (fun s => contrib t a b w h i.val s.1 s.2)) := by
    rw [hflat,
      foldl_plot_getD t a b w h i.val i.isLt sampleList (initFrame w h)
        (initFrame_zbuffer_length w h),
      initFrame_zbuffer_getD i.isLt]
    rfl
  refine ⟨hmain, ?_, ?_⟩
  · rw [hmain]
    cases hds : minDepth (sampleList.filterMap (fun s => contrib t a b w h i.val s.1 s.2)) with
    | none => exact (minDepth_eq_none_iff _).mp hds
    | some m =>
      obtain ⟨hmem, hle⟩ := minDepth_spec _ m hds
      refine ⟨hmem, ?_⟩
      rw [List.all_eq_true]
      intro z hz
      exact decide_eq_true (hle z hz)
  · intro θ φ fr
    by_cases hl : 0 < brightness t a b θ φ
    · exact Or.inr hl
    · refine Or.inl ?_
      unfold plotSample
      cases hsp : screenPos t a b w h θ φ with
      | none => rfl
      | some j =>
        dsimp only
        rw [if_neg (fun hc => hl hc.1)]

/-- Claim C6: the geometry sampler's enumeration is finite: the theta loop
yields exactly `i * 0.07` for `i = 0, ..., 89` (all below `2 * PI`), the phi
loop exactly `j * 0.02` for `j = 0, ..., 314` (all below `2 * PI`), the pair
sequence is theta-major and phi-minor, and rendering traverses exactly this
fixed sequence for every frame (it does not depend on the angles `a`, `b`). -/
theorem claim_c6 :
    thetaList = (List.range 90).map (fun i : ℕ => (i : ℚ) * theta_spacing)
    ∧ phiList = (List.range 315).map (fun j : ℕ => (j : ℚ) * phi_spacing)
    ∧ thetaList.all (fun θ => decide (θ < 2 * PI32)) = true
    ∧ phiList.all (fun φ => decide (φ < 2 * PI32)) = true
    ∧ sampleList = thetaList.flatMap (fun θ => phiList.map (fun φ => (θ, φ)))
    ∧ ∀ (t : Trig) (a b : ℚ) (w h : ℕ),
        render_frame t a b w h
          = sampleList.foldl (fun fr s => plotSample t a b w h s.1 s.2 fr) (initFrame w h) := by
  refine ⟨thetaList_eq, phiList_eq, ?_, ?_, rfl, ?_⟩
  · rw [thetaList_eq, List.all_eq_true]
    intro x hx
    simp only [List.mem_map, List.mem_range] at hx
    obtain ⟨i, hi, rfl⟩ := hx
    rw [decide_eq_true_eq]
    have hle : (i : ℚ) ≤ 89 := by exact_mod_cast Nat.le_of_lt_succ hi
    have h1 : (i : ℚ) * theta_spacing ≤ 89 * theta_spacing :=
      mul_le_mul_of_nonneg_right hle (by norm_num [theta_spacing])
    have h2 : (89 : ℚ) * theta_spacing < 2 * PI32 := by norm_num [theta_spacing, PI32]
    linarith
  · rw [phiList_eq, List.all_eq_true]
    intro x hx
    simp only [List.mem_map, List.mem_range] at hx
    obtain ⟨j, hj, rfl⟩ := hx
    rw [decide_eq_true_eq]
    have hle : (j : ℚ) ≤ 314 := by exact_mod_cast Nat.le_of_lt_succ hj
    have h1 : (j : ℚ) * phi_spacing ≤ 314 * phi_spacing :=
      mul_le_mul_of_nonneg_right hle (by norm_num [phi_spacing])
    have h2 : (314 : ℚ) * phi_spacing < 2 * PI32 := by norm_num [phi_spacing, PI32]
    linarith
  · intro t a b w h
    unfold render_frame sampleList
    rw [foldl_flatMap_pairs]

/-- Claim C7: a sample whose projected coordinates fail the bounds check is
discarded without touching either buffer, and an in-bounds projected index —
the only index ever used to read or write the character and depth grids — is
strictly below `width * height`. -/
theorem claim_c7 (t : Trig) (a b : ℚ) (w h : ℕ) (θ φ : ℚ) (fr : Frame) :
    match screenPos t a b w h θ φ with
    | none => plotSample t a b w h θ φ fr = fr
    | some i => i < w * h := by
  cases hsp : screenPos t a b w h θ φ with
  | none =>
    unfold plotSample
    rw [hsp]
  | some i => exact screenPos_lt hsp

/-- Claim C8: the rasterized grids are a deterministic function of
`(trig, a, b, width, height)` alone — two invocations on identical inputs
yield identical grids — because each call starts from buffers reinitialized
to all spaces and all `+infinity` (no cross-frame state exists). -/
theorem claim_c8 (t : Trig) (a b : ℚ) (w h : ℕ) :
    render_frame t a b w h = render_frame t a b w h
    ∧ (initFrame w h).output = List.replicate (w * h) ' '
    ∧ (initFrame w h).zbuffer = List.replicate (w * h) (none : Option ℚ)
    ∧ render_frame t a b w h
        = thetaList.foldl
            (fun fr θ => phiList.foldl (fun fr2 φ => plotSample t a b w h θ φ fr2) fr)
            (initFrame w h) :=
  ⟨rfl, rfl, rfl, rfl⟩

/-- Claim C9: each tick's sleep duration is the 50 ms target interval minus
the elapsed time, clamped at zero once the elapsed time reaches the
interval, and is never negative. -/
theorem claim_c9 (elapsed : ℕ) :
    ((frameDelayNs elapsed : ℤ) = max 0 ((targetIntervalNs : ℤ) - (elapsed : ℤ)))
    ∧ (0 : ℤ) ≤ (frameDelayNs elapsed : ℤ)
    ∧ frameDelayNs elapsed
        = if targetIntervalNs ≤ elapsed then 0 else targetIntervalNs - elapsed := by
  unfold frameDelayNs targetIntervalNs
  refine ⟨by omega, by omega, by split <;> omega⟩

/-- Holds when a z-buffer entry is `+infinity` or a finite depth `≥ 1`. -/
def depthGE1 (e : Option ℚ) : Bool :=
  match e with
  | none => true
  | some v => decide (1 ≤ v)

/-- Under the analytic trig bounds, `circle_x` lies in `[1, 3]`. -/
lemma circle_x_bounds (t : Trig) (hb : TrigBounded t) (θ : ℚ) :
    1 ≤ circle_x t θ ∧ circle_x t θ ≤ 3 := by
  have hθ := hb θ
  unfold circle_x r1 r2
  constructor <;> linarith [hθ.2.2.1, hθ.2.2.2]

/-- Under the analytic trig bounds, the computed depth is at least 1. -/
lemma zDepth_ge_one (t : Trig) (hb : TrigBounded t) (a θ φ : ℚ) :
    1 ≤ zDepth t a θ φ := by
  have ha := hb a
  have hφ := hb φ
  obtain ⟨hcx1, hcx3⟩ := circle_x_bounds t hb θ
  have hca : |t.cos a| ≤ 1 := abs_le.mpr ⟨ha.2.2.1, ha.2.2.2⟩
  have hcx : |circle_x t θ| ≤ 3 := abs_le.mpr ⟨by linarith, hcx3⟩
  have hsφ : |t.sin φ| ≤ 1 := abs_le.mpr ⟨hφ.1, hφ.2.1⟩
  have hsa : |t.sin a| ≤ 1 := abs_le.mpr ⟨ha.1, ha.2.1⟩
  have hcφ : |t.cos φ| ≤ 1 := abs_le.mpr ⟨hφ.2.2.1, hφ.2.2.2⟩
  have habs1 : |t.cos a * circle_x t θ * t.sin φ| ≤ 3 := by
    rw [abs_mul, abs_mul]
    calc |t.cos a| * |circle_x t θ| * |t.sin φ|
        ≤ 1 * 3 * 1 := by
          apply mul_le_mul _ hsφ (abs_nonneg _) (by norm_num)
          exact mul_le_mul hca hcx (abs_nonneg _) (by norm_num)
      _ = 3 := by norm_num
  have habs2 : |t.sin a * t.cos φ| ≤ 1 := by
    rw [abs_mul]
    calc |t.sin a| * |t.cos φ| ≤ 1 * 1 :=
          mul_le_mul hsa hcφ (abs_nonneg _) (by norm_num)
      _ = 1 := by norm_num
  have h1 : -3 ≤ t.cos a * circle_x t θ * t.sin φ := by
    have := neg_abs_le (t.cos a * circle_x t θ * t.sin φ)
    linarith
  have h2 : -1 ≤ t.sin a * t.cos φ := by
    have := neg_abs_le (t.sin a * t.cos φ)
    linarith
  unfold zDepth r1 k2
  nlinarith [h1, h2]

/-- `List.all` is preserved by overwriting one entry with a good value. -/
lemma all_set {α : Type} (p : α → Bool) :
    ∀ (l : List α) (i : ℕ) (x : α),
      l.all p = true → p x = true → (l.set i x).all p = true := by
  intro l
  induction l with
  | nil => intro i x _ _; rfl
  | cons y ys ih =>
    intro i x hall hx
    rw [List.all_cons, Bool.and_eq_true] at hall
    cases i with
    | zero =>
      rw [List.set_cons_zero, List.all_cons, Bool.and_eq_true]
      exact ⟨hx, hall.2⟩
    | succ n =>
      rw [List.set_cons_succ, List.all_cons, Bool.and_eq_true]
      exact ⟨hall.1, ih n x hall.2 hx⟩

/-- Under the analytic trig bounds every finite entry the rasterizer ever
stores in the z-buffer is at least 1. -/
lemma render_zbuffer_all_ge1 (t : Trig) (hb : TrigBounded t) (a b : ℚ) (w h : ℕ) :
    ((render_frame t a b w h).zbuffer.all depthGE1) = true := by
  have hplot : ∀ θ φ (fr : Frame), fr.zbuffer.all depthGE1 = true →
      (plotSample t a b w h θ φ fr).zbuffer.all depthGE1 = true := by
    intro θ φ fr hall
    unfold plotSample
    cases hsp : screenPos t a b w h θ φ with
    | none => exact hall
    | some j =>
      dsimp only
      split
      · apply all_set depthGE1 fr.zbuffer j _ hall
        have hz1 : 1 ≤ zDepth t a θ φ := zDepth_ge_one t hb a θ φ
        simp [depthGE1, hz1]
      · exact hall
  have hfold : ∀ (samples : List (ℚ × ℚ)) (fr : Frame), fr.zbuffer.all depthGE1 = true →
      ((samples.foldl (fun fr2 s => plotSample t a b w h s.1 s.2 fr2) fr).zbuffer.all depthGE1)
        = true := by
    intro samples
    induction samples with
    | nil => intro fr hall; exact hall
    | cons s ss ih => intro fr hall; exact ih _ (hplot s.1 s.2 fr hall)
  have hflat : render_frame t a b w h
      = sampleList.foldl (fun fr2 s => plotSample t a b w h s.1 s.2 fr2) (initFrame w h) := by
    unfold render_frame sampleList
    rw [foldl_flatMap_pairs]
  rw [hflat]
  apply hfold
  rw [List.all_eq_true]
  intro x hx
  have hx2 : x ∈ List.replicate (w * h) (none : Option ℚ) := by
    simpa [initFrame] using hx
  rw [List.eq_of_mem_replicate hx2]
  rfl

/-- Claim C10: with `r1 = 1`, `r2 = 2`, `k2 = 5` and the trig range bounds,
`circle_x` lies in `[1, 3]` and the depth
`z = k2 + cos a * circle_x * sin phi + sin a * r1 * cos phi` satisfies
`z ≥ 1 > 0`; hence the perspective division `k1 / z` never divides by zero
and every depth the rasterizer stores in the z-buffer is at least 1
(positive and finite). -/
theorem claim_c10 (t : Trig) (hb : TrigBounded t) (a b θ φ : ℚ) (w h : ℕ) :
    1 ≤ circle_x t θ ∧ circle_x t θ ≤ 3
    ∧ 1 ≤ zDepth t a θ φ ∧ zDepth t a θ φ ≠ 0
    ∧ ((render_frame t a b w h).zbuffer.all depthGE1) = true := by
  obtain ⟨hcx1, hcx3⟩ := circle_x_bounds t hb θ
  have hz := zDepth_ge_one t hb a θ φ
  exact ⟨hcx1, hcx3, hz, by linarith, render_zbuffer_all_ge1 t hb a b w h⟩

/-- Witness for claim C10 at the concrete bounded oracle `tZero`. -/
theorem claim_c10_w :
    1 ≤ circle_x tZero 0 ∧ circle_x tZero 0 ≤ 3
    ∧ 1 ≤ zDepth tZero 0 0 0 ∧ zDepth tZero 0 0 0 ≠ 0
    ∧ ((render_frame tZero 0 0 0 0).zbuffer.all depthGE1) = true :=
  claim_c10 tZero
    (fun x => by refine ⟨?_, ?_, ?_, ?_⟩ <;> norm_num [tZero]) 0 0 0 0 0 0

/-- `runLoop` renders nothing once the controller is stopped. -/
lemma runLoop_not_running (s : AnimState) (hs : s.running = false) :
    ∀ l : List (List KeyCode), runLoop s l = [] := by
  intro l
  cases l with
  | nil => rfl
  | cons evs rest => simp [runLoop, hs]

/-- Counterexample to claim C3: injecting Escape as the only event, the drain
does reach the stopped state, yet the trace of rasterizer invocations after
that drain is not empty — the tick that consumed Escape still renders one
frame (at angles `(0, 0)`), because `render_frame` is called unconditionally
after the drain loop. -/
theorem claim_c3_cex :
    (drainEvents initAnimState [KeyCode.esc]).1.running = false
    ∧ runLoop initAnimState [[KeyCode.esc]] = [((0 : ℚ), (0 : ℚ))]
    ∧ runLoop initAnimState [[KeyCode.esc]] ≠ [] := by
  refine ⟨rfl, rfl, ?_⟩
  intro hcontra
  rw [show runLoop initAnimState [[KeyCode.esc]] = [((0 : ℚ), (0 : ℚ))] from rfl] at hcontra
  simp at hcontra

/-- Claim C3 as amended: when a tick's drain leaves the controller stopped
(Escape was consumed), the loop still renders exactly one more frame — the
current tick's, with the post-drain angles — and the rasterizer is never
invoked in any subsequent tick. -/
theorem claim_c3_amended (s : AnimState) (evs : List KeyCode) (rest : List (List KeyCode))
    (hrun : s.running = true)
    (hstop : (drainEvents s evs).1.running = false) :
    runLoop s (evs :: rest)
      = [((drainEvents s evs).1.a, (drainEvents s evs).1.b)] := by
  unfold runLoop
  rw [hrun, if_pos rfl]
  dsimp only
  rw [runLoop_not_running
    { a := (drainEvents s evs).1.a + (drainEvents s evs).1.a_speed,
      b := (drainEvents s evs).1.b + (drainEvents s evs).1.b_speed,
      a_speed := (drainEvents s evs).1.a_speed,
      b_speed := (drainEvents s evs).1.b_speed,
      running := (drainEvents s evs).1.running } hstop rest]

/-- Witness for the amended claim C3: Escape in the first tick's batch stops
the controller; the whole trace is the single frame of that tick even though
a later batch is scheduled. -/
theorem claim_c3_w :
    initAnimState.running = true
    ∧ (drainEvents initAnimState [KeyCode.esc]).1.running = false
    ∧ runLoop initAnimState [[KeyCode.esc], [KeyCode.up]]
        = [((drainEvents initAnimState [KeyCode.esc]).1.a,
            (drainEvents initAnimState [KeyCode.esc]).1.b)] :=
  ⟨rfl, rfl, claim_c3_amended initAnimState [KeyCode.esc] [[KeyCode.up]] rfl rfl⟩

/-- Counterexample to claim C5: Escape is a drained key event outside the
seven listed ones, yet it does not leave the state unchanged — it clears the
`running` flag. -/
theorem claim_c5_cex :
    applyKey initAnimState KeyCode.esc ≠ initAnimState
    ∧ (applyKey initAnimState KeyCode.esc).running = false
    ∧ initAnimState.running = true := by
  refine ⟨?_, rfl, rfl⟩
  intro hEq
  have hrun := congrArg AnimState.running hEq
  simp [applyKey, initAnimState] at hrun

/-- Claim C5 as amended: Up/Down add/subtract exactly 0.01 to the tilt speed
only, Right/Left add/subtract exactly 0.01 to the spin speed only, `r` and
`s` both set the speeds to exactly `(0.04, 0.08)`, `p` zeroes both speeds,
Escape clears the `running` flag and changes nothing else, and every other
key leaves the entire state unchanged. -/
theorem claim_c5_amended (s : AnimState) (c : Char) :
    applyKey s .up = { s with a_speed := s.a_speed + 0.01 }
    ∧ applyKey s .down = { s with a_speed := s.a_speed - 0.01 }
    ∧ applyKey s .right = { s with b_speed := s.b_speed + 0.01 }
    ∧ applyKey s .left = { s with b_speed := s.b_speed - 0.01 }
    ∧ applyKey s (.char c)
        = (if c = 'r' ∨ c = 's' then { s with a_speed := 0.04, b_speed := 0.08 }
           else if c = 'p' then { s with a_speed := 0, b_speed := 0 }
           else s)
    ∧ applyKey s .esc = { s with running := false }
    ∧ applyKey s .other = s := by
  refine ⟨rfl, rfl, rfl, rfl, ?_, rfl, rfl⟩
  simp only [applyKey]
  by_cases hr : c = 'r'
  · subst hr
    rw [if_pos (show ('r' : Char) = 'r' from rfl),
      if_pos (show ('r' : Char) = 'r' ∨ ('r' : Char) = 's' from Or.inl rfl)]
  · by_cases hp : c = 'p'
    · subst hp
      rw [if_neg hr,
        if_pos (show ('p' : Char) = 'p' from rfl),
        if_neg (show ¬(('p' : Char) = 'r' ∨ ('p' : Char) = 's') from by decide),
        if_pos (show ('p' : Char) = 'p' from rfl)]
    · by_cases hs : c = 's'
      · subst hs
        rw [if_neg hr, if_neg hp,
          if_pos (show ('s' : Char) = 's' from rfl),
          if_pos (show ('s' : Char) = 'r' ∨ ('s' : Char) = 's' from Or.inr rfl)]
      · rw [if_neg hr, if_neg hp, if_neg hs,
          if_neg (show ¬(c = 'r' ∨ c = 's') from fun hc => hc.elim hr hs),
          if_neg hp]

/-- Emission of a run of indices, none of which starts a row: just the
characters, with no break. -/
lemma flatMap_emit_no_break (output : List Char) (w : ℕ) :
    ∀ js : List ℕ, (∀ k ∈ js, ¬ k % w = 0) →
      (js.flatMap (fun k => (if k % w = 0 then ['\n'] else []) ++ [output.getD k ' ']))
        = js.map (fun k => output.getD k ' ') := by
  intro js
  induction js with
  | nil => intro _; rfl
  | cons k ks ih =>
    intro hk
    rw [List.flatMap_cons, if_neg (hk k (List.mem_cons_self k ks)),
      ih (fun k2 hk2 => hk k2 (List.mem_cons_of_mem k hk2))]
    rfl

/-- Emission of one full row of indices `w*r, ..., w*r + (w-1)`: exactly one
break followed by the row's characters. -/
lemma flushRow (output : List Char) (w r : ℕ) (hw : 0 < w) :
    (((List.range w).map (fun j => w * r + j)).flatMap
        (fun k => (if k % w = 0 then ['\n'] else []) ++ [output.getD k ' ']))
      = '\n' :: (List.range w).map (fun j => output.getD (w * r + j) ' ') := by
  obtain ⟨m, rfl⟩ : ∃ m, w = m + 1 := ⟨w - 1, by omega⟩
  simp only [List.range_succ_eq_map, List.map_cons, List.map_map, List.flatMap_cons,
    Function.comp_def, Nat.succ_eq_add_one, Nat.add_zero]
  rw [flatMap_emit_no_break output (m + 1)
      ((List.range m).map (fun j => (m + 1) * r + (j + 1)))
      (by
        intro k hk
        obtain ⟨j, hj, rfl⟩ := List.mem_map.mp hk
        have hjm : j < m := List.mem_range.mp hj
        rw [Nat.mul_add_mod, Nat.mod_eq_of_lt (by omega)]
        omega)]
  rw [if_pos (Nat.mul_mod_right (m + 1) r)]
  simp [List.map_map, Function.comp_def]

/-- Claim C4 as amended: the flush emits the cursor-reset escape, then for
each of the `height` rows one line break followed by that row's `width`
characters in row-major order — the break comes before each row, including
the first. -/
theorem claim_c4_amended (output : List Char) (w h : ℕ) (hw : 0 < w) :
    flushFrame output w h
      = cursorReset
        ++ (List.range h).flatMap
            (fun r => '\n' :: (List.range w).map (fun c2 => output.getD (w * r + c2) ' ')) := by
  unfold flushFrame
  congr 1
  induction h with
  | zero => simp
  | succ n ih =>
    have hsplit : List.range (w * (n + 1))
        = List.range (w * n) ++ (List.range w).map (fun j => w * n + j) := by
      rw [show w * (n + 1) = w * n + w from by ring, List.range_add]
    rw [hsplit, List.flatMap_append, ih, List.range_succ, List.flatMap_append,
      flushRow output w n hw]
    simp

/-- Modelled from the spec: counterexample to claim C4.  On a 1-by-1 frame
the flush emits the line break before the buffer character (the break is
printed whenever `k % width == 0`, so also at `k = 0`), not after it as the
claim's "followed by the buffer characters, with one line break after every
width characters" requires. -/
theorem claim_c4_cex :
    flushFrame ['x'] 1 1 = cursorReset ++ ['\n', 'x']
    ∧ specFlushFrame ['x'] 1 1 = cursorReset ++ ['x', '\n']
    ∧ flushFrame ['x'] 1 1 ≠ specFlushFrame ['x'] 1 1 := by
  refine ⟨rfl, rfl, ?_⟩
  intro hcontra
  rw [show flushFrame ['x'] 1 1 = cursorReset ++ ['\n', 'x'] from rfl,
    show specFlushFrame ['x'] 1 1 = cursorReset ++ ['x', '\n'] from rfl] at hcontra
  simp [cursorReset] at hcontra

/-- Witness for the amended claim C4 on a concrete 1-by-1 frame. -/
theorem claim_c4_w :
    0 < 1
    ∧ flushFrame ['x'] 1 1
        = cursorReset
          ++ (List.range 1).flatMap
              (fun r => '\n' :: (List.range 1).map
                (fun c2 => (['x'] : List Char).getD (1 * r + c2) ' ')) :=
  ⟨by decide, claim_c4_amended ['x'] 1 1 (by decide)⟩

/-- Concrete trig oracle for exhibiting a written sample whose brightness
exceeds `11/12` (the values used at the three argument points are attainable
sine/cosine pairs). -/
def tC2 : Trig :=
  ⟨fun x => if x = 0 then 0 else if x = 1 then 1 else -(1/2),
   fun x => if x = 0 then 1 else if x = 1 then 0 else 1⟩

/-- Depth of the exhibited sample. -/
lemma c2_z : zDepth tC2 0 0 2 = 7/2 := by
  unfold zDepth circle_x r1 r2 k2 tC2
  norm_num

/-- Rotated x-coordinate of the exhibited sample. -/
lemma c2_x : xCoord tC2 0 1 0 2 = 1/2 := by
  unfold xCoord circle_x r1 r2 tC2
  norm_num

/-- Rotated y-coordinate of the exhibited sample. -/
lemma c2_y : yCoord tC2 0 1 0 2 = 1/2 := by
  unfold yCoord circle_x r1 r2 tC2
  norm_num

/-- Brightness of the exhibited sample: `3/2 > 11/12`. -/
lemma c2_l : brightness tC2 0 1 0 2 = 3/2 := by
  unfold brightness tC2
  norm_num

/-- The exhibited sample projects in bounds, to cell 6 of a 4-by-4 frame. -/
lemma c2_screenPos : screenPos tC2 0 1 4 4 0 2 = some 6 := by
  simp only [screenPos]
  rw [c2_z, c2_x, c2_y]
  rw [show k1 4 = 5/2 from by norm_num [k1, r1, r2, k2]]
  rw [show ((4:ℕ):ℚ)/2 + 1/2 * ((5/2 : ℚ) / (7/2)) = 33/14 from by norm_num]
  rw [show ((4:ℕ):ℚ)/2 - 1/2 * ((5/2 : ℚ) / (7/2)) = 23/14 from by norm_num]
  rw [show truncQ (33/14) = 2 from by
    unfold truncQ
    rw [if_pos (by norm_num), Int.floor_eq_iff]
    norm_num]
  rw [show truncQ (23/14) = 1 from by
    unfold truncQ
    rw [if_pos (by norm_num), Int.floor_eq_iff]
    norm_num]
  norm_num
  decide

/-- The code's quantization of brightness `3/2`: clamp to 11, then floor. -/
lemma lum_c2 : luminance_index (3/2) = 11 := by
  unfold luminance_index
  rw [show ((3:ℚ)/2 * 12) = 18 from by norm_num]
  rw [max_eq_left (by norm_num : (0:ℚ) ≤ 18), min_eq_right (by norm_num : (11:ℚ) ≤ 18)]
  rw [show ⌊(11:ℚ)⌋ = 11 from by rw [Int.floor_eq_iff]; norm_num]
  rfl

/-- The claim's quantization of brightness `3/2`: floor, then clamp to 13. -/
lemma spec_lum_c2 : specLuminanceIndex (3/2) = 13 := by
  unfold specLuminanceIndex
  rw [show ((3:ℚ)/2 * 12) = 18 from by norm_num]
  rw [show ⌊(18:ℚ)⌋ = 18 from by rw [Int.floor_eq_iff]; norm_num]
  rfl

/-- The exhibited sample is written, and the character stored is `'@'`. -/
lemma c2_plot :
    (plotSample tC2 0 1 4 4 0 2 (initFrame 4 4)).output.getD 6 ' ' = '@' := by
  unfold plotSample
  rw [c2_screenPos]
  dsimp only
  rw [initFrame_zbuffer_getD (show (6:ℕ) < 4 * 4 from by norm_num)]
  rw [if_pos (show 0 < brightness tC2 0 1 0 2 ∧ ltStored (zDepth tC2 0 0 2) none = true
      from ⟨by rw [c2_l]; norm_num, rfl⟩)]
  dsimp only
  rw [c2_l, lum_c2]
  rw [List.getD_eq_getElem?_getD,
    List.getElem?_set_self (show (6:ℕ) < (initFrame 4 4).output.length from by simp [initFrame])]
  rfl

/-- The code's luminance index never exceeds 11. -/
lemma luminance_index_le (l : ℚ) : luminance_index l ≤ 11 := by
  unfold luminance_index
  have h1 : min (max (l * 12) 0) 11 ≤ (11 : ℚ) := min_le_right _ _
  have h2 : ⌊min (max (l * 12) 0) 11⌋ ≤ 11 := by
    have h3 := Int.floor_le_floor h1
    rwa [show ⌊(11:ℚ)⌋ = 11 from by rw [Int.floor_eq_iff]; norm_num] at h3
  omega

/-- Brightness at or above `11/12` saturates the code's index at 11. -/
lemma luminance_index_sat (l : ℚ) (hl : 11/12 ≤ l) : luminance_index l = 11 := by
  unfold luminance_index
  have h1 : (11 : ℚ) ≤ l * 12 := by linarith
  rw [max_eq_left (by linarith : (0:ℚ) ≤ l * 12), min_eq_right h1,
    show ⌊(11:ℚ)⌋ = 11 from by rw [Int.floor_eq_iff]; norm_num]
  rfl

/-- Every write the rasterizer performs stores the ramp character of the
sample's quantized brightness, at an in-bounds cell. -/
lemma plotSample_output_shape (t : Trig) (a b : ℚ) (w h : ℕ) (θ φ : ℚ) (fr : Frame) :
    (plotSample t a b w h θ φ fr).output = fr.output
    ∨ ∃ i, i < w * h
        ∧ (plotSample t a b w h θ φ fr).output
            = fr.output.set i (rampChar (luminance_index (brightness t a b θ φ))) := by
  unfold plotSample
  cases hsp : screenPos t a b w h θ φ with
  | none => exact Or.inl rfl
  | some j =>
    dsimp only
    split
    · exact Or.inr ⟨j, screenPos_lt hsp, rfl⟩
    · exact Or.inl rfl

/-- Counterexample to claim C2: a written sample with brightness `3/2`.  The
code clamps `l * 12 = 18` to 11 BEFORE flooring and stores `'@'` (ramp
index 11); the claim's quantization — floor clamped to `[0, 13]` — selects
index 13, the character `'&'`.  Indices 12 and 13 of the 14-character ramp
are unreachable in the code. -/
theorem claim_c2_cex :
    brightness tC2 0 1 0 2 = 3/2
    ∧ luminance_index (3/2) = 11
    ∧ specLuminanceIndex (3/2) = 13
    ∧ rampChar 11 = '@'
    ∧ rampChar 13 = '&'
    ∧ (plotSample tC2 0 1 4 4 0 2 (initFrame 4 4)).output.getD 6 ' ' = '@'
    ∧ ('@' : Char) ≠ '&' :=
  ⟨c2_l, lum_c2, spec_lum_c2, rfl, rfl, c2_plot, by decide⟩

/-- Claim C2 as amended: the character written for a sample is chosen by the
index `floor (clamp (brightness * 12, 0, 11))` into the 14-character ramp
`".,-~:;=!*#$@%&"`; the selected index is never outside `[0, 11]` (so ramp
entries 12 and 13 are never selected), and brightness at or above `11/12`
saturates at index 11, the character `'@'`. -/
theorem claim_c2_amended (l : ℚ) (t : Trig) (a b : ℚ) (w h : ℕ) (θ φ : ℚ) (fr : Frame) :
    luminance_index l ≤ 11
    ∧ asciiRamp.length = 14
    ∧ rampChar 11 = '@'
    ∧ (11/12 ≤ l → luminance_index l = 11)
    ∧ ((plotSample t a b w h θ φ fr).output = fr.output
        ∨ ∃ i, i < w * h
            ∧ (plotSample t a b w h θ φ fr).output
                = fr.output.set i (rampChar (luminance_index (brightness t a b θ φ)))) :=
  ⟨luminance_index_le l, rfl, rfl, luminance_index_sat l,
    plotSample_output_shape t a b w h θ φ fr⟩

/-- Witness for the amended claim C2 at brightness 1 and a concrete frame. -/
theorem claim_c2_w :
    luminance_index 1 ≤ 11
    ∧ asciiRamp.length = 14
    ∧ rampChar 11 = '@'
    ∧ (11/12 ≤ (1:ℚ) ∧ luminance_index 1 = 11)
    ∧ ((plotSample tZero 0 0 1 1 0 0 (initFrame 1 1)).output = (initFrame 1 1).output
        ∨ ∃ i, i < 1 * 1
            ∧ (plotSample tZero 0 0 1 1 0 0 (initFrame 1 1)).output
                = (initFrame 1 1).output.set i
                    (rampChar (luminance_index (brightness tZero 0 0 0 0)))) := by
  have hmain := claim_c2_amended 1 tZero 0 0 1 1 0 0 (initFrame 1 1)
  exact ⟨hmain.1, hmain.2.1, hmain.2.2.1, ⟨by norm_num, hmain.2.2.2.1 (by norm_num)⟩,
    hmain.2.2.2.2⟩
